import Mathlib

set_option autoImplicit false

/-!
Shallow embedding of the doubly linked list in
`src/BagContainerAdaptor/include/BagContainerAdaptor/linked_list.hpp`.

Heap-resident nodes are modelled by a store mapping natural-number node ids
(the "addresses") to node records; null pointers are `Option.none`.  Reading
or writing through a null or dangling pointer — undefined behaviour in the
C++ source — makes the whole operation return `none`.  `size_t` counter
arithmetic is carried out modulo `2 ^ 64`.
-/

namespace BagLL

/-- Embedding of `LinkedListNode<T>` with `T = int`: one data value plus the
`m_next` and `m_inverse` links, both null (`none`) by default. -/
structure LinkedListNode where
  m_data : Int
  m_next : Option Nat := none
  m_inverse : Option Nat := none
deriving DecidableEq

/-- The heap: an association list from node ids to nodes.  Entries added by
allocation are consed at the front with a fresh id. -/
abbrev Store := List (Nat × LinkedListNode)

/-- Read the node stored at id `i` (first binding wins). -/
def getN : Store → Nat → Option LinkedListNode
  | [], _ => none
  | (j, nd) :: rest, i => if j = i then some nd else getN rest i

/-- Overwrite the first binding of id `i` with `nd`; no-op when `i` is absent. -/
def setN : Store → Nat → LinkedListNode → Store
  | [], _, _ => []
  | (j, old) :: rest, i, nd => if j = i then (j, nd) :: rest else (j, old) :: setN rest i nd

/-- Remove the first binding of id `i`: models `m_allocator.deallocate`. -/
def delN : Store → Nat → Store
  | [], _ => []
  | (j, nd) :: rest, i => if j = i then rest else (j, nd) :: delN rest i

/-- Largest id bound in the store (0 for the empty store). -/
def maxKey : Store → Nat
  | [] => 0
  | (j, _) :: rest => max j (maxKey rest)

/-- A fresh id, strictly larger than every bound id: models the allocator
returning the address of a new, distinct heap cell. -/
def freshKey (σ : Store) : Nat := maxKey σ + 1

/-- Dereference a pointer: `none` (null) or a dangling id crashes. -/
def readN (σ : Store) : Option Nat → Option LinkedListNode
  | none => none
  | some i => getN σ i

/-- Assignment `p->m_next = v`: crashes on a null or dangling pointer. -/
def writeNext (σ : Store) (p : Option Nat) (v : Option Nat) : Option Store :=
  match p with
  | none => none
  | some i =>
    match getN σ i with
    | none => none
    | some nd => some (setN σ i { nd with m_next := v })

/-- Assignment `p->m_inverse = v`: crashes on a null or dangling pointer. -/
def writeInverse (σ : Store) (p : Option Nat) (v : Option Nat) : Option Store :=
  match p with
  | none => none
  | some i =>
    match getN σ i with
    | none => none
    | some nd => some (setN σ i { nd with m_inverse := v })

/-- Embedding of the `LinkedList<T>` header fields `m_head`, `m_tail`,
`m_count` (the node heap lives in the ambient `Store`). -/
structure LinkedList where
  m_head : Option Nat := none
  m_tail : Option Nat := none
  m_count : Nat := 0
deriving DecidableEq

/-- Cardinality of `size_t`, used to model the 64-bit `m_count`. -/
def sizeTCard : Nat := 2 ^ 64

/-- Wrapping `m_count++` on `size_t`. -/
def incSize (n : Nat) : Nat := (n + 1) % sizeTCard

/-- Wrapping `m_count--` on `size_t`. -/
def decSize (n : Nat) : Nat := (n + (sizeTCard - 1)) % sizeTCard

/-- Embedding of `LinkedList::begin()`: an iterator holding `m_head`. -/
def LinkedList.begin (L : LinkedList) : Option Nat := L.m_head

/-- Embedding of `LinkedList::end()`: the null sentinel iterator. -/
def LinkedList.endSentinel (_L : LinkedList) : Option Nat := none

/-- Embedding of `LinkedList::rbegin()`: the null reverse iterator. -/
def LinkedList.rbegin (_L : LinkedList) : Option Nat := none

/-- Embedding of `LinkedList::rend()`: a reverse iterator holding `m_tail`. -/
def LinkedList.rend (L : LinkedList) : Option Nat := L.m_tail

/-- Outcome of an iterator step: a new cursor, a loud `std::terminate`, or
undefined behaviour (dereferencing a dangling pointer). -/
inductive IterOutcome where
  | ok (cur : Option Nat) : IterOutcome
  | terminated : IterOutcome
  | undef : IterOutcome
deriving DecidableEq

/-- Embedding of `LinkedList::iterator::operator--`: with a non-null current
node it moves to `m_inverse`; with a null current node it prints an error and
calls `std::terminate`. -/
def iterDecrement (σ : Store) (cur : Option Nat) : IterOutcome :=
  match cur with
  | some i =>
    match getN σ i with
    | some nd => .ok nd.m_inverse
    | none => .undef
  | none => .terminated

/-- Embedding of `LinkedList::const_iterator::operator--`, whose body is
identical to the non-const version. -/
def constIterDecrement (σ : Store) (cur : Option Nat) : IterOutcome :=
  match cur with
  | some i =>
    match getN σ i with
    | some nd => .ok nd.m_inverse
    | none => .undef
  | none => .terminated

/-- Embedding of `LinkedList::insert(const T&)`: allocate a node, append it
after `m_tail` (or make it head and tail of an empty list), bump `m_count`,
and return `iterator(m_tail)`, i.e. the new node. -/
def insertValue (σ : Store) (L : LinkedList) (value : Int) :
    Option (Store × LinkedList × Option Nat) :=
  let k := freshKey σ
  let σ1 : Store := (k, { m_data := value }) :: σ
  match L.m_head with
  | none =>
    some (σ1, { m_head := some k, m_tail := some k, m_count := incSize L.m_count }, some k)
  | some _ => do
    let σ2 ← writeNext σ1 L.m_tail (some k)
    let σ3 ← writeInverse σ2 (some k) L.m_tail
    some (σ3, { m_head := L.m_head, m_tail := some k, m_count := incSize L.m_count }, some k)

/-- Embedding of `LinkedList::insert(iterator, const T&)`.  The interior
branch mirrors the source statement order exactly: it first redirects
`ogNode->m_inverse->m_next` and `ogNode->m_inverse`, then sets the new node's
`m_next`, and finally reads `ogNode->m_inverse` *again* (which now holds the
new node) to set the new node's `m_inverse`. -/
def insertAt (σ : Store) (L : LinkedList) (pos : Option Nat) (value : Int) :
    Option (Store × LinkedList × Option Nat) :=
  let k := freshKey σ
  let σ1 : Store := (k, { m_data := value }) :: σ
  match L.m_head with
  | none =>
    some (σ1, { m_head := some k, m_tail := some k, m_count := incSize L.m_count }, some k)
  | some h =>
    if pos = some h then do
      let σ2 ← writeNext σ1 (some k) L.m_head
      let σ3 ← writeInverse σ2 L.m_head (some k)
      some (σ3, { m_head := some k, m_tail := L.m_tail, m_count := incSize L.m_count }, some k)
    else if pos = none then do
      let σ2 ← writeInverse σ1 (some k) L.m_tail
      let σ3 ← writeNext σ2 L.m_tail (some k)
      some (σ3, { m_head := L.m_head, m_tail := some k, m_count := incSize L.m_count }, some k)
    else do
      let og ← readN σ1 pos
      let σ2 ← writeNext σ1 og.m_inverse (some k)
      let σ3 ← writeInverse σ2 pos (some k)
      let σ4 ← writeNext σ3 (some k) pos
      let og2 ← readN σ4 pos
      let σ5 ← writeInverse σ4 (some k) og2.m_inverse
      some (σ5, { m_head := L.m_head, m_tail := L.m_tail, m_count := incSize L.m_count }, some k)

/-- Embedding of the scan loop of `LinkedList::erase(const T&)`: walk from
`cur` while the current node's data differs from `value`, tracking the
previous node; returns the found node (or null) and the previous node.  The
fuel only bounds the recursion; with fuel at least the chain length it never
runs out. -/
def scanValue (σ : Store) (value : Int) : Nat → Option Nat → Option Nat →
    Option (Option Nat × Option Nat)
  | _, none, prev => some (none, prev)
  | fuel, some i, prev =>
    match getN σ i with
    | none => none
    | some nd =>
      if nd.m_data = value then some (some i, prev)
      else
        match fuel with
        | 0 => none
        | fuel + 1 => scanValue σ value fuel nd.m_next (some i)

/-- Embedding of `LinkedList::erase(const T&)`: scan for the first node whose
data equals `value`; if found, detach it with the head/tail/interior split of
the source (the head branch unconditionally writes through
`currentNode->m_next`), deallocate, decrement `m_count`, and return an
iterator to the following node; otherwise return `iterator(m_tail)`. -/
def eraseValue (σ : Store) (L : LinkedList) (value : Int) :
    Option (Store × LinkedList × Option Nat) := do
  let (found, prev) ← scanValue σ value σ.length L.m_head none
  match found with
  | none => some (σ, L, L.m_tail)
  | some c => do
    let nd ← getN σ c
    match prev with
    | none => do
      let σ2 ← writeInverse σ nd.m_next none
      some (delN σ2 c, { m_head := nd.m_next, m_tail := L.m_tail, m_count := decSize L.m_count },
        nd.m_next)
    | some p =>
      match nd.m_next with
      | none => do
        let σ2 ← writeNext σ (some p) none
        some (delN σ2 c, { m_head := L.m_head, m_tail := some p, m_count := decSize L.m_count },
          none)
      | some nx => do
        let σ2 ← writeNext σ (some p) (some nx)
        let σ3 ← writeInverse σ2 (some nx) (some p)
        some (delN σ3 c, { m_head := L.m_head, m_tail := L.m_tail, m_count := decSize L.m_count },
          some nx)

/-- Embedding of `LinkedList::erase(iterator)`.  The source dereferences
`removable->m_next` before its null check, so a null `pos` crashes and the
`removable == nullptr` branch is dead. -/
def erasePos (σ : Store) (L : LinkedList) (pos : Option Nat) :
    Option (Store × LinkedList × Option Nat) := do
  let nd ← readN σ pos
  match pos with
  | none => some (σ, L, L.m_tail)
  | some r =>
    if pos = L.m_head then
      match nd.m_next with
      | some h2 => do
        let σ2 ← writeInverse σ (some h2) none
        some (delN σ2 r, { m_head := some h2, m_tail := L.m_tail, m_count := decSize L.m_count },
          nd.m_next)
      | none =>
        some (delN σ r, { m_head := none, m_tail := none, m_count := decSize L.m_count },
          nd.m_next)
    else if pos = L.m_tail then do
      let σ2 ← writeNext σ nd.m_inverse none
      some (delN σ2 r, { m_head := L.m_head, m_tail := nd.m_inverse, m_count := decSize L.m_count },
        nd.m_next)
    else do
      let σ2 ← writeNext σ nd.m_inverse nd.m_next
      let σ3 ← writeInverse σ2 nd.m_next nd.m_inverse
      some (delN σ3 r, { m_head := L.m_head, m_tail := L.m_tail, m_count := decSize L.m_count },
        nd.m_next)

/-- Embedding of the deletion loop of `LinkedList::erase(iterator, iterator)`:
`while (currentNode != lastNode)` read `m_next`, deallocate, advance,
decrement the count.  Entering the body with a null `cur` dereferences null. -/
def deleteRun : Nat → Store → Option Nat → Nat → Nat → Option (Store × Nat)
  | 0, σ, cur, lastN, cnt =>
    if cur = some lastN then some (σ, cnt) else none
  | fuel + 1, σ, cur, lastN, cnt =>
    if cur = some lastN then some (σ, cnt)
    else
      match cur with
      | none => none
      | some c =>
        match getN σ c with
        | none => none
        | some nd => deleteRun fuel (delN σ c) nd.m_next lastN (decSize cnt)

/-- Embedding of `LinkedList::erase(iterator, iterator)`.  Mirrors the source:
`lastNode` is resolved to `m_tail` when `last` is the end sentinel; degenerate
cases return `iterator(nullptr)` without mutating; otherwise `prevNode` and
`nextNode` are computed, head/tail are reassigned by the four-way branch (the
both-non-null branch sets `m_head = prevNode` and `m_tail = nextNode`), the
run is deallocated, and finally `lastNode` itself is deallocated too. -/
def eraseRange (σ : Store) (L : LinkedList) (first last : Option Nat) :
    Option (Store × LinkedList × Option Nat) :=
  let lastNode : Option Nat := if last = none then L.m_tail else last
  match first, lastNode with
  | none, _ => some (σ, L, none)
  | some _, none => some (σ, L, none)
  | some f, some l =>
    if f = l then some (σ, L, none)
    else
      match if first = L.m_head then some (none : Option Nat)
            else (getN σ f).map LinkedListNode.m_inverse with
      | none => none
      | some prev =>
        match if last ≠ none ∨ some l ≠ L.m_tail then (getN σ l).map LinkedListNode.m_next
              else some (none : Option Nat) with
        | none => none
        | some next =>
          match (match prev, next with
                 | none, some nx => some (some nx, L.m_tail, σ)
                 | some pv, none => some (L.m_head, some pv, σ)
                 | none, none => some ((none : Option Nat), (none : Option Nat), σ)
                 | some pv, some nx =>
                   match writeNext σ (some pv) (some nx) with
                   | none => none
                   | some σa =>
                     match writeInverse σa (some nx) (some pv) with
                     | none => none
                     | some σb => some (some pv, some nx, σb)) with
          | none => none
          | some hts =>
            match deleteRun hts.2.2.length hts.2.2 (some f) l L.m_count with
            | none => none
            | some (σ2, c2) =>
              some (delN σ2 l, { m_head := hts.1, m_tail := hts.2.1, m_count := decSize c2 },
                next)

/-- Embedding of the deallocation loop of `LinkedList::clear()`: walk from
`m_head` via `m_next`, deallocating each node. -/
def clearLoop : Store → Option Nat → Nat → Option Store
  | σ, none, _ => some σ
  | _, some _, 0 => none
  | σ, some i, fuel + 1 =>
    match getN σ i with
    | none => none
    | some nd => clearLoop (delN σ i) nd.m_next fuel

/-- Embedding of `LinkedList::clear()`: the loop nulls `m_head` and the count
is reset to 0, but `m_tail` is left exactly as it was. -/
def clear (σ : Store) (L : LinkedList) : Option (Store × LinkedList) :=
  (clearLoop σ L.m_head σ.length).map
    (fun σ2 => (σ2, { m_head := none, m_tail := L.m_tail, m_count := 0 }))

/-- Embedding of `LinkedList::swap`: the two headers exchange `m_head`,
`m_tail` and `m_count`; no node is touched. -/
def swap (a b : LinkedList) : LinkedList × LinkedList :=
  ({ m_head := b.m_head, m_tail := b.m_tail, m_count := b.m_count },
   { m_head := a.m_head, m_tail := a.m_tail, m_count := a.m_count })

/-- Embedding of the copy constructor `LinkedList(const LinkedList<T>&)`: a
memberwise copy of `m_head`, `m_tail`, `m_count`; no node is allocated or
copied, so both headers reference the same heap nodes afterwards. -/
def copyConstruct (other : LinkedList) : LinkedList :=
  { m_head := other.m_head, m_tail := other.m_tail, m_count := other.m_count }

/-- Embedding of the copy assignment operator: the same memberwise copy (the
`this != &other` self-assignment guard changes nothing observable here). -/
def copyAssign (_this other : LinkedList) : LinkedList :=
  { m_head := other.m_head, m_tail := other.m_tail, m_count := other.m_count }

/-- Embedding of the initializer-list constructor: fold `insert(value)` over
the values, threading the store, starting from a default-constructed list. -/
def mkListAux : List Int → Store → LinkedList → Option (Store × LinkedList)
  | [], σ, L => some (σ, L)
  | x :: xs, σ, L => do
    let (σ2, L2, _) ← insertValue σ L x
    mkListAux xs σ2 L2

/-- Build a list from the given values in an initially empty heap, exactly as
`LinkedList list = {x1, ..., xn}` does. -/
def mkList (xs : List Int) : Option (Store × LinkedList) := mkListAux xs [] {}

/-- Values visited by a forward-iterator loop (`operator++` moves to
`m_next`), fuel-bounded; stops at the null sentinel or a dangling node. -/
def travNext (σ : Store) : Nat → Option Nat → List Int
  | _, none => []
  | 0, some _ => []
  | fuel + 1, some i =>
    match getN σ i with
    | none => []
    | some nd => nd.m_data :: travNext σ fuel nd.m_next

/-- Values visited by a reverse-iterator loop (`operator++` moves to
`m_inverse`), fuel-bounded; stops at the null sentinel or a dangling node. -/
def travPrev (σ : Store) : Nat → Option Nat → List Int
  | _, none => []
  | 0, some _ => []
  | fuel + 1, some i =>
    match getN σ i with
    | none => []
    | some nd => nd.m_data :: travPrev σ fuel nd.m_inverse

/-- Node ids visited walking `m_next` from a pointer, fuel-bounded. -/
def walkIds (σ : Store) : Nat → Option Nat → List Nat
  | _, none => []
  | 0, some _ => []
  | fuel + 1, some i =>
    match getN σ i with
    | none => []
    | some nd => i :: walkIds σ fuel nd.m_next

/-- Data stored at id `i`, if any. -/
def dataAt (σ : Store) (i : Nat) : Option Int :=
  (getN σ i).map LinkedListNode.m_data

/-- Formalisation of the specification invariants I1–I4 plus the
size-reachability condition, checked on the nodes reachable from `m_head`:
I1 `head = null ↔ tail = null ↔ count = 0`; I2 walking `next` from `head`
visits exactly `count` nodes, the last being `tail`; I4 `n.next.inverse = n`
for non-tail reachable `n` and `n.inverse.next = n` for non-head reachable
`n`; and `size()` equals the number of reachable nodes. -/
def specInvariantHolds (σ : Store) (L : LinkedList) : Bool :=
  let ids := walkIds σ (σ.length + 1) L.m_head
  decide ((L.m_head = none) ↔ (L.m_tail = none)) &&
  decide ((L.m_head = none) ↔ (L.m_count = 0)) &&
  (ids.length == L.m_count) &&
  (ids.getLast? == L.m_tail) &&
  ids.all (fun i =>
    match getN σ i with
    | none => false
    | some nd =>
      (match nd.m_next with
       | none => true
       | some j =>
         match getN σ j with
         | none => false
         | some jn => jn.m_inverse == some i) &&
      (match nd.m_inverse with
       | none => true
       | some j =>
         match getN σ j with
         | none => false
         | some jn => jn.m_next == some i))

/-! ### Basic store lemmas -/

theorem getN_setN_ne (σ : Store) (i j : Nat) (nd : LinkedListNode) (h : j ≠ i) :
    getN (setN σ j nd) i = getN σ i := by
  induction σ with
  | nil => rfl
  | cons e rest ih =>
    obtain ⟨a, b⟩ := e
    by_cases ha : a = j
    · subst ha
      simp [setN, getN, h]
    · simp [setN, getN, ha]
      by_cases hai : a = i <;> simp [hai, ih]

theorem getN_setN_self (σ : Store) (j : Nat) (nd nd0 : LinkedListNode)
    (h : getN σ j = some nd0) : getN (setN σ j nd) j = some nd := by
  induction σ with
  | nil => simp [getN] at h
  | cons e rest ih =>
    obtain ⟨a, b⟩ := e
    by_cases ha : a = j
    · subst ha
      simp [setN, getN]
    · simp [getN, ha] at h
      simp [setN, getN, ha, ih h]

theorem setN_length (σ : Store) (j : Nat) (nd : LinkedListNode) :
    (setN σ j nd).length = σ.length := by
  induction σ with
  | nil => rfl
  | cons e rest ih =>
    obtain ⟨a, b⟩ := e
    by_cases ha : a = j <;> simp [setN, ha, ih]

theorem getN_delN_ne (σ : Store) (i j : Nat) (h : j ≠ i) :
    getN (delN σ j) i = getN σ i := by
  induction σ with
  | nil => rfl
  | cons e rest ih =>
    obtain ⟨a, b⟩ := e
    by_cases ha : a = j
    · subst ha
      simp [delN, getN, h]
    · simp [delN, getN, ha]
      by_cases hai : a = i <;> simp [hai, ih]

theorem getN_le_maxKey (σ : Store) (i : Nat) (nd : LinkedListNode)
    (h : getN σ i = some nd) : i ≤ maxKey σ := by
  induction σ with
  | nil => simp [getN] at h
  | cons e rest ih =>
    obtain ⟨a, b⟩ := e
    by_cases ha : a = i
    · subst ha
      simp [maxKey]
    · simp [getN, ha] at h
      simp [maxKey]
      exact Or.inr (ih h)

theorem getN_freshKey (σ : Store) : getN σ (freshKey σ) = none := by
  cases h : getN σ (freshKey σ) with
  | none => rfl
  | some nd =>
    have := getN_le_maxKey σ (freshKey σ) nd h
    simp [freshKey] at this

theorem getN_cons_fresh (σ : Store) (nd0 : LinkedListNode) (i : Nat)
    (nd : LinkedListNode) (h : getN σ i = some nd) :
    getN ((freshKey σ, nd0) :: σ) i = some nd := by
  have hne : freshKey σ ≠ i := by
    intro he
    rw [← he, getN_freshKey σ] at h
    exact Option.noConfusion h
  simp [getN, hne, h]

theorem getN_eq_none_iff (σ : Store) (i : Nat) :
    getN σ i = none ↔ i ∉ σ.map Prod.fst := by
  induction σ with
  | nil => simp [getN]
  | cons e rest ih =>
    obtain ⟨a, b⟩ := e
    by_cases ha : a = i
    · subst ha
      simp [getN]
    · simp [getN, ha, ih, Ne.symm ha]

theorem keys_setN (σ : Store) (j : Nat) (nd : LinkedListNode) :
    (setN σ j nd).map Prod.fst = σ.map Prod.fst := by
  induction σ with
  | nil => rfl
  | cons e rest ih =>
    obtain ⟨a, b⟩ := e
    by_cases ha : a = j <;> simp [setN, ha, ih]

theorem keys_delN_sublist (σ : Store) (j : Nat) :
    List.Sublist ((delN σ j).map Prod.fst) (σ.map Prod.fst) := by
  induction σ with
  | nil => simp [delN]
  | cons e rest ih =>
    obtain ⟨a, b⟩ := e
    by_cases ha : a = j
    · simp [delN, ha]
    · simp [delN, ha]
      exact ih

theorem nodup_delN (σ : Store) (j : Nat) (h : (σ.map Prod.fst).Nodup) :
    ((delN σ j).map Prod.fst).Nodup :=
  List.Nodup.sublist (keys_delN_sublist σ j) h

theorem nodup_setN (σ : Store) (j : Nat) (nd : LinkedListNode)
    (h : (σ.map Prod.fst).Nodup) : ((setN σ j nd).map Prod.fst).Nodup := by
  rw [keys_setN]
  exact h

theorem getN_delN_self (σ : Store) (j : Nat) (h : (σ.map Prod.fst).Nodup) :
    getN (delN σ j) j = none := by
  induction σ with
  | nil => rfl
  | cons e rest ih =>
    obtain ⟨a, b⟩ := e
    rw [List.map_cons, List.nodup_cons] at h
    by_cases ha : a = j
    · subst ha
      simp [delN]
      rw [getN_eq_none_iff]
      exact h.1
    · simp [delN, getN, ha]
      exact ih h.2

/-! ### Well-formed chains

`chainOK σ prev p ids xs` states that following `m_next` from the pointer `p`
passes exactly through the nodes `ids` carrying the data `xs`, that the
`m_inverse` link of each node points to its predecessor (`prev` for the first
node), and that the last node's `m_next` is null. -/

def chainOK (σ : Store) : Option Nat → Option Nat → List Nat → List Int → Prop
  | _, p, [], xs => p = none ∧ xs = []
  | prev, p, i :: is, xs =>
    ∃ nd xsT, p = some i ∧ xs = nd.m_data :: xsT ∧ getN σ i = some nd ∧
      nd.m_inverse = prev ∧ chainOK σ (some i) nd.m_next is xsT

theorem chainOK_length (σ : Store) : ∀ (ids : List Nat) (xs : List Int) (prev p : Option Nat),
    chainOK σ prev p ids xs → ids.length = xs.length
  | [], xs, _, _, h => by
    simp only [chainOK] at h
    simp [h.2]
  | i :: is, xs, prev, p, h => by
    obtain ⟨nd, xsT, hp, hxs, hget, hinv, hch⟩ := h
    subst hxs
    simp [chainOK_length σ is xsT (some i) nd.m_next hch]

theorem chainOK_getN (σ : Store) : ∀ (ids : List Nat) (xs : List Int) (prev p : Option Nat),
    chainOK σ prev p ids xs → ∀ i ∈ ids, ∃ nd, getN σ i = some nd
  | [], _, _, _, _, i, hi => by simp at hi
  | j :: is, xs, prev, p, h, i, hi => by
    obtain ⟨nd, xsT, hp, hxs, hget, hinv, hch⟩ := h
    rcases List.mem_cons.mp hi with he | hm
    · exact ⟨nd, he ▸ hget⟩
    · exact chainOK_getN σ is xsT (some j) nd.m_next hch i hm

theorem chainOK_lt_freshKey (σ : Store) (ids : List Nat) (xs : List Int)
    (prev p : Option Nat) (h : chainOK σ prev p ids xs) :
    ∀ i ∈ ids, i < freshKey σ := by
  intro i hi
  obtain ⟨nd, hnd⟩ := chainOK_getN σ ids xs prev p h i hi
  have := getN_le_maxKey σ i nd hnd
  simp [freshKey]
  omega

theorem chainOK_getLast (σ : Store) : ∀ (ids : List Nat) (xs : List Int)
    (prev p : Option Nat) (t : Nat),
    chainOK σ prev p ids xs → ids.getLast? = some t →
    ∃ nd, getN σ t = some nd ∧ nd.m_next = none
  | [], _, _, _, _, _, hl => by simp at hl
  | [i], xs, prev, p, t, h, hl => by
    obtain ⟨nd, xsT, hp, hxs, hget, hinv, hch⟩ := h
    simp only [chainOK] at hch
    simp at hl
    subst hl
    exact ⟨nd, hget, hch.1⟩
  | i :: j :: is, xs, prev, p, t, h, hl => by
    obtain ⟨nd, xsT, hp, hxs, hget, hinv, hch⟩ := h
    rw [List.getLast?_cons_cons] at hl
    exact chainOK_getLast σ (j :: is) xsT (some i) nd.m_next t hch hl

theorem chainOK_snoc (σ : Store) (k : Nat) (v : Int) (lastId : Nat) (lastNd : LinkedListNode) :
    ∀ (ids : List Nat) (xs : List Int) (prev p : Option Nat),
    chainOK σ prev p ids xs →
    ids.Pairwise (· < ·) →
    (∀ i ∈ ids, i < k) →
    ids.getLast? = some lastId →
    getN σ lastId = some lastNd →
    chainOK ((k, { m_data := v, m_next := none, m_inverse := some lastId }) ::
        setN σ lastId { lastNd with m_next := some k })
      prev p (ids ++ [k]) (xs ++ [v])
  | [], _, _, _, _, _, _, hl, _ => by simp at hl
  | [i], xs, prev, p, h, hpw, hlt, hl, hlast => by
    obtain ⟨nd, xsT, hp, hxs, hget, hinv, hch⟩ := h
    simp only [chainOK] at hch
    simp at hl
    subst hl
    have hik : i < k := hlt i (by simp)
    have hnd : lastNd = nd := by
      rw [hget] at hlast
      exact (Option.some.injEq _ _ ▸ hlast).symm
    subst hnd
    subst hxs
    refine ⟨{ lastNd with m_next := some k }, xsT ++ [v], hp, by simp [hch.2], ?_, hinv, ?_⟩
    · have h1 : getN (setN σ i { lastNd with m_next := some k }) i =
          some { lastNd with m_next := some k } := getN_setN_self σ i _ lastNd hget
      simp [getN, Nat.ne_of_gt hik, h1]
    · obtain ⟨hnx, hxsT⟩ := hch
      subst hxsT
      refine ⟨{ m_data := v, m_next := none, m_inverse := some i }, [], rfl, rfl, ?_, rfl, ?_⟩
      · simp [getN]
      · simp [chainOK]
  | i :: j :: is, xs, prev, p, h, hpw, hlt, hl, hlast => by
    obtain ⟨nd, xsT, hp, hxs, hget, hinv, hch⟩ := h
    rw [List.getLast?_cons_cons] at hl
    have hik : i < k := hlt i (by simp)
    have hilast : i ≠ lastId := by
      have : lastId ∈ j :: is := List.mem_of_mem_getLast? hl
      intro he
      have := (List.pairwise_cons.mp hpw).1 lastId this
      omega
    refine ⟨nd, ?_, hp, ?_, ?_, hinv, ?_⟩
    · exact xsT ++ [v]
    · simp [hxs]
    · have h1 : getN (setN σ lastId { lastNd with m_next := some k }) i = getN σ i :=
        getN_setN_ne σ i lastId _ (Ne.symm hilast)
      simp [getN, Nat.ne_of_gt hik, h1, hget]
    · exact chainOK_snoc σ k v lastId lastNd (j :: is) xsT (some i) nd.m_next hch
        (List.pairwise_cons.mp hpw).2 (fun a ha => hlt a (List.mem_cons_of_mem i ha)) hl hlast

theorem travNext_chain (σ : Store) : ∀ (ids : List Nat) (xs : List Int)
    (prev p : Option Nat) (fuel : Nat),
    chainOK σ prev p ids xs → ids.length ≤ fuel → travNext σ fuel p = xs
  | [], xs, _, p, fuel, h, _ => by
    obtain ⟨hp, hxs⟩ := h
    subst hp
    subst hxs
    cases fuel <;> rfl
  | i :: is, xs, prev, p, fuel, h, hf => by
    obtain ⟨nd, xsT, hp, hxs, hget, hinv, hch⟩ := h
    subst hp
    subst hxs
    cases fuel with
    | zero => simp at hf
    | succ f =>
      simp only [travNext, hget]
      rw [travNext_chain σ is xsT (some i) nd.m_next f hch (by simpa using hf)]

theorem travPrev_chain (σ : Store) : ∀ (ids : List Nat) (xs : List Int)
    (prev p : Option Nat) (t : Nat) (fuel : Nat),
    chainOK σ prev p ids xs → ids.getLast? = some t →
    travPrev σ (ids.length + fuel) (some t) = xs.reverse ++ travPrev σ fuel prev
  | [], _, _, _, _, _, _, hl => by simp at hl
  | [i], xs, prev, p, t, fuel, h, hl => by
    obtain ⟨nd, xsT, hp, hxs, hget, hinv, hch⟩ := h
    obtain ⟨hnx, hxsT⟩ := hch
    simp at hl
    subst hl
    subst hxs
    subst hxsT
    simp only [List.length_singleton, Nat.add_comm 1 fuel]
    simp only [travPrev, hget, hinv]
    simp
  | i :: j :: is, xs, prev, p, t, fuel, h, hl => by
    obtain ⟨nd, xsT, hp, hxs, hget, hinv, hch⟩ := h
    rw [List.getLast?_cons_cons] at hl
    subst hxs
    have step : travPrev σ ((j :: is).length + (fuel + 1)) (some t) =
        xsT.reverse ++ travPrev σ (fuel + 1) (some i) :=
      travPrev_chain σ (j :: is) xsT (some i) nd.m_next t (fuel + 1) hch hl
    have hlen : (i :: j :: is).length + fuel = (j :: is).length + (fuel + 1) := by simp; omega
    rw [hlen, step]
    simp only [travPrev, hget, hinv]
    simp

theorem scanValue_not_found (σ : Store) (v : Int) : ∀ (ids : List Nat) (xs : List Int)
    (prev p : Option Nat) (fuel : Nat) (pr : Option Nat),
    chainOK σ prev p ids xs → (∀ x ∈ xs, x ≠ v) → ids.length ≤ fuel →
    ∃ pr2, scanValue σ v fuel p pr = some (none, pr2)
  | [], xs, _, p, fuel, pr, h, _, _ => by
    obtain ⟨hp, hxs⟩ := h
    subst hp
    exact ⟨pr, by cases fuel <;> rfl⟩
  | i :: is, xs, prev, p, fuel, pr, h, hno, hf => by
    obtain ⟨nd, xsT, hp, hxs, hget, hinv, hch⟩ := h
    subst hp
    subst hxs
    cases fuel with
    | zero => simp at hf
    | succ f =>
      have hne : nd.m_data ≠ v := hno nd.m_data (by simp)
      obtain ⟨pr2, hpr2⟩ := scanValue_not_found σ v is xsT (some i) nd.m_next f (some i) hch
        (fun x hx => hno x (by simp [hx])) (by simpa using hf)
      exact ⟨pr2, by simp only [scanValue, hget, hne, if_false]; exact hpr2⟩

/-- Representation invariant tying a header and a store to the list of node
ids and values it holds: the forward chain from `m_head` is exactly `ids`
with data `xs`, `m_tail` is the last id, the store holds exactly one entry
per chain node, and the ids are strictly increasing (in allocation order). -/
def listRep (σ : Store) (L : LinkedList) (ids : List Nat) (xs : List Int) : Prop :=
  chainOK σ none L.m_head ids xs ∧ L.m_tail = ids.getLast? ∧
  σ.length = ids.length ∧ ids.Pairwise (· < ·)

theorem insertValue_listRep (σ : Store) (L : LinkedList) (ids : List Nat) (xs : List Int)
    (v : Int) (h : listRep σ L ids xs) :
    ∃ σ2 L2, insertValue σ L v = some (σ2, L2, some (freshKey σ)) ∧
      listRep σ2 L2 (ids ++ [freshKey σ]) (xs ++ [v]) := by
  obtain ⟨hch, htl, hlen, hpw⟩ := h
  have hltk : ∀ i ∈ ids, i < freshKey σ := chainOK_lt_freshKey σ ids xs none L.m_head hch
  cases ids with
  | nil =>
    obtain ⟨hhd, hxs⟩ := hch
    subst hxs
    refine ⟨(freshKey σ, { m_data := v }) :: σ,
      { m_head := some (freshKey σ), m_tail := some (freshKey σ),
        m_count := incSize L.m_count }, ?_, ?_⟩
    · simp only [insertValue, hhd]
    · refine ⟨⟨{ m_data := v }, [], rfl, rfl, by simp [getN], rfl, by simp [chainOK]⟩,
        by simp, by simp [hlen], by simp⟩
  | cons i is =>
    have hhd : L.m_head = some i := by
      obtain ⟨nd, xsT, hp, _, _, _, _⟩ := hch
      exact hp
    obtain ⟨lastId, hlast⟩ : ∃ t, (i :: is).getLast? = some t :=
      ⟨(i :: is).getLast (by simp), List.getLast?_eq_getLast _ _⟩
    obtain ⟨lastNd, hlget, hlnx⟩ := chainOK_getLast σ (i :: is) xs none L.m_head lastId hch hlast
    have hlk : lastId ≠ freshKey σ :=
      Nat.ne_of_lt (hltk lastId (List.mem_of_mem_getLast? hlast))
    have hget1 : getN ((freshKey σ, ({ m_data := v } : LinkedListNode)) :: σ) lastId =
        some lastNd := by simp [getN, Ne.symm hlk, hlget]
    refine ⟨(freshKey σ, { m_data := v, m_next := none, m_inverse := some lastId }) ::
        setN σ lastId { lastNd with m_next := some (freshKey σ) },
      { m_head := L.m_head, m_tail := some (freshKey σ), m_count := incSize L.m_count },
      ?_, ?_⟩
    · have hw1 : writeNext ((freshKey σ, ({ m_data := v } : LinkedListNode)) :: σ)
          (some lastId) (some (freshKey σ)) =
          some (setN ((freshKey σ, ({ m_data := v } : LinkedListNode)) :: σ) lastId
            { lastNd with m_next := some (freshKey σ) }) := by
        unfold writeNext
        simp [hget1]
      have hsets : setN ((freshKey σ, ({ m_data := v } : LinkedListNode)) :: σ) lastId
          { lastNd with m_next := some (freshKey σ) } =
          (freshKey σ, ({ m_data := v } : LinkedListNode)) ::
            setN σ lastId { lastNd with m_next := some (freshKey σ) } := by
        simp [setN, Ne.symm hlk]
      have hw2 : writeInverse ((freshKey σ, ({ m_data := v } : LinkedListNode)) ::
            setN σ lastId { lastNd with m_next := some (freshKey σ) })
          (some (freshKey σ)) (some lastId) =
          some ((freshKey σ, { m_data := v, m_next := none, m_inverse := some lastId }) ::
            setN σ lastId { lastNd with m_next := some (freshKey σ) }) := by
        unfold writeInverse
        simp [getN, setN, Ne.symm hlk]
      unfold insertValue
      rw [hhd, htl, hlast]
      simp only [hw1, hsets, hw2, Option.bind_eq_bind, Option.some_bind]
    · constructor
      · have := chainOK_snoc σ (freshKey σ) v lastId lastNd (i :: is) xs none L.m_head
          hch hpw hltk hlast hlget
        simpa [hhd] using this
      · refine ⟨?_, ?_, ?_⟩
        · show some (freshKey σ) = (i :: is ++ [freshKey σ]).getLast?
          rw [show i :: is ++ [freshKey σ] = (i :: is) ++ [freshKey σ] from rfl,
            List.getLast?_concat]
        · simp [setN_length, hlen]
        · rw [List.pairwise_append]
          exact ⟨hpw, by simp, fun a ha b hb => by simp at hb; subst hb; exact hltk a ha⟩

theorem mkListAux_listRep : ∀ (xs : List Int) (σ : Store) (L : LinkedList)
    (ids : List Nat) (vs : List Int), listRep σ L ids vs →
    ∃ σ2 L2 ids2, mkListAux xs σ L = some (σ2, L2) ∧ listRep σ2 L2 ids2 (vs ++ xs)
  | [], σ, L, ids, vs, h => ⟨σ, L, ids, rfl, by simpa using h⟩
  | x :: xs, σ, L, ids, vs, h => by
    obtain ⟨σ2, L2, hrun, hrep⟩ := insertValue_listRep σ L ids vs x h
    obtain ⟨σ3, L3, ids3, hrun3, hrep3⟩ :=
      mkListAux_listRep xs σ2 L2 (ids ++ [freshKey σ]) (vs ++ [x]) hrep
    refine ⟨σ3, L3, ids3, ?_, by simpa using hrep3⟩
    simp only [mkListAux, hrun, Option.bind_eq_bind, Option.some_bind]
    exact hrun3

theorem mkList_listRep (xs : List Int) :
    ∃ σ L ids, mkList xs = some (σ, L) ∧ listRep σ L ids xs := by
  obtain ⟨σ2, L2, ids2, hrun, hrep⟩ := mkListAux_listRep xs [] {} [] []
    ⟨⟨rfl, rfl⟩, rfl, rfl, List.Pairwise.nil⟩
  exact ⟨σ2, L2, ids2, hrun, by simpa using hrep⟩

/-! ### Data-frame machinery

The C++ list never moves, relocates or rewrites the stored value of a heap
node: every mutation is a relink (`m_next`/`m_inverse` assignment), an
allocation of a fresh node, or a deallocation.  The lemmas below make that
precise for the embedded primitives and compose them over each list
operation. -/

/-- Every datum present in `σ` is still present unchanged in `σ2`
(no node disappears): holds for the allocation/relink-only operations. -/
def dataKept (σ σ2 : Store) : Prop :=
  ∀ i d, dataAt σ i = some d → dataAt σ2 i = some d

/-- Each id either keeps exactly its old datum or has been deallocated:
holds for the erase operations. -/
def dataPresOrGone (σ σ2 : Store) : Prop :=
  ∀ i, dataAt σ2 i = dataAt σ i ∨ getN σ2 i = none

theorem dataKept_refl (σ : Store) : dataKept σ σ := fun _ _ h => h

theorem dataKept_trans {σ1 σ2 σ3 : Store} (h1 : dataKept σ1 σ2) (h2 : dataKept σ2 σ3) :
    dataKept σ1 σ3 := fun i d h => h2 i d (h1 i d h)

theorem dataPresOrGone_refl (σ : Store) : dataPresOrGone σ σ := fun _ => Or.inl rfl

theorem dataPresOrGone_trans {σ1 σ2 σ3 : Store}
    (h1 : dataPresOrGone σ1 σ2) (h2 : dataPresOrGone σ2 σ3) : dataPresOrGone σ1 σ3 := by
  intro i
  rcases h2 i with h2i | h2i
  · rcases h1 i with h1i | h1i
    · exact Or.inl (h2i.trans h1i)
    · refine Or.inr ?_
      have : dataAt σ2 i = none := by simp [dataAt, h1i]
      rw [this] at h2i
      simpa [dataAt] using h2i
  · exact Or.inr h2i

theorem dataPresOrGone_of_dataKept {σ1 σ2 : Store}
    (hk : ∀ i, dataAt σ2 i = dataAt σ1 i) : dataPresOrGone σ1 σ2 :=
  fun i => Or.inl (hk i)

theorem dataKept_cons_fresh (σ : Store) (nd0 : LinkedListNode) :
    dataKept σ ((freshKey σ, nd0) :: σ) := by
  intro i d h
  rcases hg : getN σ i with _ | nd
  · simp [dataAt, hg] at h
  · rw [dataAt, getN_cons_fresh σ nd0 i nd hg]
    simpa [dataAt, hg] using h

theorem setN_dataAt (σ : Store) (j : Nat) (nd nd2 : LinkedListNode)
    (hget : getN σ j = some nd) (hd : nd2.m_data = nd.m_data) :
    ∀ i, dataAt (setN σ j nd2) i = dataAt σ i := by
  intro i
  by_cases hij : i = j
  · subst hij
    rw [dataAt, getN_setN_self σ i nd2 nd hget]
    simp [dataAt, hget, hd]
  · rw [dataAt, getN_setN_ne σ i j nd2 (Ne.symm hij)]
    rfl

theorem writeNext_dataAt {σ σ2 : Store} {p v : Option Nat}
    (h : writeNext σ p v = some σ2) : ∀ i, dataAt σ2 i = dataAt σ i := by
  cases p with
  | none => exact Option.noConfusion h
  | some j =>
    cases hg : getN σ j with
    | none =>
      simp only [writeNext, hg] at h
      exact Option.noConfusion h
    | some nd =>
      simp only [writeNext, hg, Option.some.injEq] at h
      subst h
      exact setN_dataAt σ j nd _ hg rfl

theorem writeInverse_dataAt {σ σ2 : Store} {p v : Option Nat}
    (h : writeInverse σ p v = some σ2) : ∀ i, dataAt σ2 i = dataAt σ i := by
  cases p with
  | none => exact Option.noConfusion h
  | some j =>
    cases hg : getN σ j with
    | none =>
      simp only [writeInverse, hg] at h
      exact Option.noConfusion h
    | some nd =>
      simp only [writeInverse, hg, Option.some.injEq] at h
      subst h
      exact setN_dataAt σ j nd _ hg rfl

theorem writeNext_keys {σ σ2 : Store} {p v : Option Nat}
    (h : writeNext σ p v = some σ2) : σ2.map Prod.fst = σ.map Prod.fst := by
  cases p with
  | none => exact Option.noConfusion h
  | some j =>
    cases hg : getN σ j with
    | none =>
      simp only [writeNext, hg] at h
      exact Option.noConfusion h
    | some nd =>
      simp only [writeNext, hg, Option.some.injEq] at h
      subst h
      exact keys_setN σ j _

theorem writeInverse_keys {σ σ2 : Store} {p v : Option Nat}
    (h : writeInverse σ p v = some σ2) : σ2.map Prod.fst = σ.map Prod.fst := by
  cases p with
  | none => exact Option.noConfusion h
  | some j =>
    cases hg : getN σ j with
    | none =>
      simp only [writeInverse, hg] at h
      exact Option.noConfusion h
    | some nd =>
      simp only [writeInverse, hg, Option.some.injEq] at h
      subst h
      exact keys_setN σ j _

theorem delN_presOrGone (σ : Store) (j : Nat) (hnd : (σ.map Prod.fst).Nodup) :
    dataPresOrGone σ (delN σ j) := by
  intro i
  by_cases hij : i = j
  · subst hij
    exact Or.inr (getN_delN_self σ i hnd)
  · exact Or.inl (by rw [dataAt, getN_delN_ne σ i j (Ne.symm hij)]; rfl)

theorem delN_dataAt_ne (σ : Store) (i j : Nat) (h : i ≠ j) :
    dataAt (delN σ j) i = dataAt σ i := by
  rw [dataAt, getN_delN_ne σ i j (Ne.symm h)]
  rfl

theorem deleteRun_presOrGone :
    ∀ (fuel : Nat) (σ : Store) (cur : Option Nat) (lastN cnt : Nat) (σ2 : Store) (cnt2 : Nat),
    (σ.map Prod.fst).Nodup → deleteRun fuel σ cur lastN cnt = some (σ2, cnt2) →
    dataPresOrGone σ σ2 ∧ (σ2.map Prod.fst).Nodup
  | 0, σ, cur, lastN, cnt, σ2, cnt2, hnd, hrun => by
    unfold deleteRun at hrun
    by_cases hc : cur = some lastN
    · rw [if_pos hc] at hrun
      obtain ⟨h1, _⟩ := Prod.mk.injEq _ _ _ _ ▸ Option.some.injEq _ _ ▸ hrun
      subst h1
      exact ⟨dataPresOrGone_refl σ, hnd⟩
    · rw [if_neg hc] at hrun
      exact Option.noConfusion hrun
  | fuel + 1, σ, cur, lastN, cnt, σ2, cnt2, hnd, hrun => by
    unfold deleteRun at hrun
    by_cases hc : cur = some lastN
    · rw [if_pos hc] at hrun
      obtain ⟨h1, _⟩ := Prod.mk.injEq _ _ _ _ ▸ Option.some.injEq _ _ ▸ hrun
      subst h1
      exact ⟨dataPresOrGone_refl σ, hnd⟩
    · rw [if_neg hc] at hrun
      cases cur with
      | none => exact Option.noConfusion hrun
      | some c =>
        cases hg : getN σ c with
        | none =>
          simp only [hg] at hrun
          exact Option.noConfusion hrun
        | some nd =>
          simp only [hg] at hrun
          have hnd2 : ((delN σ c).map Prod.fst).Nodup := nodup_delN σ c hnd
          obtain ⟨hpres, hnod⟩ := deleteRun_presOrGone fuel (delN σ c) nd.m_next lastN
            (decSize cnt) σ2 cnt2 hnd2 hrun
          exact ⟨dataPresOrGone_trans (delN_presOrGone σ c hnd) hpres, hnod⟩

/-- Frame property a mutation establishes between its input and output
stores: any node present both before and after carries the same datum. -/
def sameDataOnCommon (σ σ2 : Store) : Prop :=
  ∀ i nd nd2, getN σ i = some nd → getN σ2 i = some nd2 → nd2.m_data = nd.m_data

theorem sameDataOnCommon_of_dataKept {σ σ2 : Store} (h : dataKept σ σ2) :
    sameDataOnCommon σ σ2 := by
  intro i nd nd2 h1 h2
  have hk := h i nd.m_data (by simp [dataAt, h1])
  rw [dataAt, h2] at hk
  simpa using hk

theorem sameDataOnCommon_of_presOrGone {σ σ2 : Store} (h : dataPresOrGone σ σ2) :
    sameDataOnCommon σ σ2 := by
  intro i nd nd2 h1 h2
  rcases h i with hi | hi
  · rw [dataAt, dataAt, h1, h2] at hi
    simpa using hi
  · rw [hi] at h2
    exact Option.noConfusion h2

theorem dataKept_of_eq {σ1 σ2 : Store} (he : ∀ i, dataAt σ2 i = dataAt σ1 i) :
    dataKept σ1 σ2 := by
  intro i d h
  rw [he i]
  exact h

theorem insertValue_dataKept (σ : Store) (L : LinkedList) (v : Int)
    (σ2 : Store) (L2 : LinkedList) (r : Option Nat)
    (hrun : insertValue σ L v = some (σ2, L2, r)) : dataKept σ σ2 := by
  cases hhd : L.m_head with
  | none =>
    simp only [insertValue, hhd, Option.some.injEq, Prod.mk.injEq] at hrun
    obtain ⟨h1, -, -⟩ := hrun
    subst h1
    exact dataKept_cons_fresh σ _
  | some h0 =>
    simp only [insertValue, hhd, Option.bind_eq_bind, Option.bind_eq_some] at hrun
    obtain ⟨σa, hwa, σb, hwb, hfin⟩ := hrun
    simp only [Option.some.injEq, Prod.mk.injEq] at hfin
    obtain ⟨h1, -, -⟩ := hfin
    subst h1
    exact dataKept_trans (dataKept_cons_fresh σ _)
      (dataKept_trans (dataKept_of_eq (writeNext_dataAt hwa))
        (dataKept_of_eq (writeInverse_dataAt hwb)))

theorem insertAt_dataKept (σ : Store) (L : LinkedList) (pos : Option Nat) (v : Int)
    (σ2 : Store) (L2 : LinkedList) (r : Option Nat)
    (hrun : insertAt σ L pos v = some (σ2, L2, r)) : dataKept σ σ2 := by
  cases hhd : L.m_head with
  | none =>
    simp only [insertAt, hhd, Option.some.injEq, Prod.mk.injEq] at hrun
    obtain ⟨h1, -, -⟩ := hrun
    subst h1
    exact dataKept_cons_fresh σ _
  | some h0 =>
    simp only [insertAt, hhd] at hrun
    split at hrun
    · simp only [Option.bind_eq_bind, Option.bind_eq_some] at hrun
      obtain ⟨σa, hwa, σb, hwb, hfin⟩ := hrun
      simp only [Option.some.injEq, Prod.mk.injEq] at hfin
      obtain ⟨h1, -, -⟩ := hfin
      subst h1
      exact dataKept_trans (dataKept_cons_fresh σ _)
        (dataKept_trans (dataKept_of_eq (writeNext_dataAt hwa))
          (dataKept_of_eq (writeInverse_dataAt hwb)))
    · split at hrun
      · simp only [Option.bind_eq_bind, Option.bind_eq_some] at hrun
        obtain ⟨σa, hwa, σb, hwb, hfin⟩ := hrun
        simp only [Option.some.injEq, Prod.mk.injEq] at hfin
        obtain ⟨h1, -, -⟩ := hfin
        subst h1
        exact dataKept_trans (dataKept_cons_fresh σ _)
          (dataKept_trans (dataKept_of_eq (writeInverse_dataAt hwa))
            (dataKept_of_eq (writeNext_dataAt hwb)))
      · simp only [Option.bind_eq_bind, Option.bind_eq_some] at hrun
        obtain ⟨og, hog, σa, hwa, σb, hwb, σc, hwc, og2, hog2, σd, hwd, hfin⟩ := hrun
        simp only [Option.some.injEq, Prod.mk.injEq] at hfin
        obtain ⟨h1, -, -⟩ := hfin
        subst h1
        exact dataKept_trans (dataKept_cons_fresh σ _)
          (dataKept_trans (dataKept_of_eq (writeNext_dataAt hwa))
            (dataKept_trans (dataKept_of_eq (writeInverse_dataAt hwb))
              (dataKept_trans (dataKept_of_eq (writeNext_dataAt hwc))
                (dataKept_of_eq (writeInverse_dataAt hwd)))))

theorem eraseValue_presOrGone (σ : Store) (L : LinkedList) (v : Int)
    (σ2 : Store) (L2 : LinkedList) (r : Option Nat)
    (hnd : (σ.map Prod.fst).Nodup)
    (hrun : eraseValue σ L v = some (σ2, L2, r)) : dataPresOrGone σ σ2 := by
  simp only [eraseValue, Option.bind_eq_bind, Option.bind_eq_some] at hrun
  obtain ⟨⟨found, prev⟩, hscan, hrun⟩ := hrun
  cases found with
  | none =>
    simp only [Option.some.injEq, Prod.mk.injEq] at hrun
    obtain ⟨h1, -, -⟩ := hrun
    subst h1
    exact dataPresOrGone_refl σ
  | some c =>
    simp only [Option.bind_eq_bind, Option.bind_eq_some] at hrun
    obtain ⟨nd, hnd2, hrun⟩ := hrun
    cases prev with
    | none =>
      simp only [Option.bind_eq_bind, Option.bind_eq_some] at hrun
      obtain ⟨σa, hwa, hfin⟩ := hrun
      simp only [Option.some.injEq, Prod.mk.injEq] at hfin
      obtain ⟨h1, -, -⟩ := hfin
      subst h1
      have hkeys : (σa.map Prod.fst).Nodup := (writeInverse_keys hwa) ▸ hnd
      exact dataPresOrGone_trans (dataPresOrGone_of_dataKept (writeInverse_dataAt hwa))
        (delN_presOrGone σa c hkeys)
    | some p =>
      cases hnx : nd.m_next with
      | none =>
        rw [hnx] at hrun
        simp only [Option.bind_eq_bind, Option.bind_eq_some] at hrun
        obtain ⟨σa, hwa, hfin⟩ := hrun
        simp only [Option.some.injEq, Prod.mk.injEq] at hfin
        obtain ⟨h1, -, -⟩ := hfin
        subst h1
        have hkeys : (σa.map Prod.fst).Nodup := (writeNext_keys hwa) ▸ hnd
        exact dataPresOrGone_trans (dataPresOrGone_of_dataKept (writeNext_dataAt hwa))
          (delN_presOrGone σa c hkeys)
      | some nx =>
        rw [hnx] at hrun
        simp only [Option.bind_eq_bind, Option.bind_eq_some] at hrun
        obtain ⟨σa, hwa, σb, hwb, hfin⟩ := hrun
        simp only [Option.some.injEq, Prod.mk.injEq] at hfin
        obtain ⟨h1, -, -⟩ := hfin
        subst h1
        have hkeys : (σb.map Prod.fst).Nodup := by
          rw [writeInverse_keys hwb, writeNext_keys hwa]
          exact hnd
        exact dataPresOrGone_trans (dataPresOrGone_of_dataKept (writeNext_dataAt hwa))
          (dataPresOrGone_trans (dataPresOrGone_of_dataKept (writeInverse_dataAt hwb))
            (delN_presOrGone σb c hkeys))

theorem erasePos_presOrGone (σ : Store) (L : LinkedList) (pos : Option Nat)
    (σ2 : Store) (L2 : LinkedList) (r : Option Nat)
    (hnd : (σ.map Prod.fst).Nodup)
    (hrun : erasePos σ L pos = some (σ2, L2, r)) : dataPresOrGone σ σ2 := by
  cases pos with
  | none =>
    simp only [erasePos, readN, Option.bind_eq_bind, Option.bind_eq_some] at hrun
    obtain ⟨nd, hc, -⟩ := hrun
    exact Option.noConfusion hc
  | some r0 =>
    simp only [erasePos, readN, Option.bind_eq_bind, Option.bind_eq_some] at hrun
    obtain ⟨nd, hread, hrun⟩ := hrun
    split at hrun
    · split at hrun
      · simp only [Option.bind_eq_bind, Option.bind_eq_some] at hrun
        obtain ⟨σa, hwa, hfin⟩ := hrun
        simp only [Option.some.injEq, Prod.mk.injEq] at hfin
        obtain ⟨h1, -, -⟩ := hfin
        subst h1
        have hkeys : (σa.map Prod.fst).Nodup := (writeInverse_keys hwa) ▸ hnd
        exact dataPresOrGone_trans (dataPresOrGone_of_dataKept (writeInverse_dataAt hwa))
          (delN_presOrGone σa r0 hkeys)
      · simp only [Option.some.injEq, Prod.mk.injEq] at hrun
        obtain ⟨h1, -, -⟩ := hrun
        subst h1
        exact delN_presOrGone σ r0 hnd
    · split at hrun
      · simp only [Option.bind_eq_bind, Option.bind_eq_some] at hrun
        obtain ⟨σa, hwa, hfin⟩ := hrun
        simp only [Option.some.injEq, Prod.mk.injEq] at hfin
        obtain ⟨h1, -, -⟩ := hfin
        subst h1
        have hkeys : (σa.map Prod.fst).Nodup := (writeNext_keys hwa) ▸ hnd
        exact dataPresOrGone_trans (dataPresOrGone_of_dataKept (writeNext_dataAt hwa))
          (delN_presOrGone σa r0 hkeys)
      · simp only [Option.bind_eq_bind, Option.bind_eq_some] at hrun
        obtain ⟨σa, hwa, σb, hwb, hfin⟩ := hrun
        simp only [Option.some.injEq, Prod.mk.injEq] at hfin
        obtain ⟨h1, -, -⟩ := hfin
        subst h1
        have hkeys : (σb.map Prod.fst).Nodup := by
          rw [writeInverse_keys hwb, writeNext_keys hwa]
          exact hnd
        exact dataPresOrGone_trans (dataPresOrGone_of_dataKept (writeNext_dataAt hwa))
          (dataPresOrGone_trans (dataPresOrGone_of_dataKept (writeInverse_dataAt hwb))
            (delN_presOrGone σb r0 hkeys))

theorem erasePos_dataAt_ne (σ : Store) (L : LinkedList) (pos : Option Nat)
    (σ2 : Store) (L2 : LinkedList) (r : Option Nat)
    (hrun : erasePos σ L pos = some (σ2, L2, r)) (i : Nat) (hne : pos ≠ some i) :
    dataAt σ2 i = dataAt σ i := by
  cases pos with
  | none =>
    simp only [erasePos, readN, Option.bind_eq_bind, Option.bind_eq_some] at hrun
    obtain ⟨nd, hc, -⟩ := hrun
    exact Option.noConfusion hc
  | some r0 =>
    have hir : i ≠ r0 := fun he => hne (by rw [he])
    simp only [erasePos, readN, Option.bind_eq_bind, Option.bind_eq_some] at hrun
    obtain ⟨nd, hread, hrun⟩ := hrun
    split at hrun
    · split at hrun
      · simp only [Option.bind_eq_bind, Option.bind_eq_some] at hrun
        obtain ⟨σa, hwa, hfin⟩ := hrun
        simp only [Option.some.injEq, Prod.mk.injEq] at hfin
        obtain ⟨h1, -, -⟩ := hfin
        subst h1
        rw [delN_dataAt_ne σa i r0 hir, writeInverse_dataAt hwa]
      · simp only [Option.some.injEq, Prod.mk.injEq] at hrun
        obtain ⟨h1, -, -⟩ := hrun
        subst h1
        exact delN_dataAt_ne σ i r0 hir
    · split at hrun
      · simp only [Option.bind_eq_bind, Option.bind_eq_some] at hrun
        obtain ⟨σa, hwa, hfin⟩ := hrun
        simp only [Option.some.injEq, Prod.mk.injEq] at hfin
        obtain ⟨h1, -, -⟩ := hfin
        subst h1
        rw [delN_dataAt_ne σa i r0 hir, writeNext_dataAt hwa]
      · simp only [Option.bind_eq_bind, Option.bind_eq_some] at hrun
        obtain ⟨σa, hwa, σb, hwb, hfin⟩ := hrun
        simp only [Option.some.injEq, Prod.mk.injEq] at hfin
        obtain ⟨h1, -, -⟩ := hfin
        subst h1
        rw [delN_dataAt_ne σb i r0 hir, writeInverse_dataAt hwb, writeNext_dataAt hwa]

theorem eraseRange_presOrGone (σ : Store) (L : LinkedList) (first last : Option Nat)
    (σ2 : Store) (L2 : LinkedList) (r : Option Nat)
    (hnd : (σ.map Prod.fst).Nodup)
    (hrun : eraseRange σ L first last = some (σ2, L2, r)) : dataPresOrGone σ σ2 := by
  cases first with
  | none =>
    simp only [eraseRange, Option.some.injEq, Prod.mk.injEq] at hrun
    obtain ⟨h1, -, -⟩ := hrun
    subst h1
    exact dataPresOrGone_refl σ
  | some f =>
    cases hln : (if last = none then L.m_tail else last) with
    | none =>
      simp only [eraseRange, hln, Option.some.injEq, Prod.mk.injEq] at hrun
      obtain ⟨h1, -, -⟩ := hrun
      subst h1
      exact dataPresOrGone_refl σ
    | some l =>
      simp only [eraseRange, hln] at hrun
      split at hrun
      · simp only [Option.some.injEq, Prod.mk.injEq] at hrun
        obtain ⟨h1, -, -⟩ := hrun
        subst h1
        exact dataPresOrGone_refl σ
      · split at hrun
        · exact Option.noConfusion hrun
        · rename_i prev hprev
          split at hrun
          · exact Option.noConfusion hrun
          · rename_i next hnext
            split at hrun
            · exact Option.noConfusion hrun
            · rename_i hts hhts
              split at hrun
              · exact Option.noConfusion hrun
              · rename_i sc σd cd hdel
                simp only [Option.some.injEq, Prod.mk.injEq] at hrun
                obtain ⟨h1, -, -⟩ := hrun
                subst h1
                have hmid : dataPresOrGone σ hts.2.2 ∧ (hts.2.2.map Prod.fst).Nodup := by
                  split at hhts
                  · obtain rfl := Option.some.inj hhts
                    exact ⟨dataPresOrGone_refl σ, hnd⟩
                  · obtain rfl := Option.some.inj hhts
                    exact ⟨dataPresOrGone_refl σ, hnd⟩
                  · obtain rfl := Option.some.inj hhts
                    exact ⟨dataPresOrGone_refl σ, hnd⟩
                  · split at hhts
                    · exact Option.noConfusion hhts
                    · rename_i σa hwa
                      split at hhts
                      · exact Option.noConfusion hhts
                      · rename_i σb hwb
                        obtain rfl := Option.some.inj hhts
                        refine ⟨?_, ?_⟩
                        · exact dataPresOrGone_of_dataKept (fun i => by
                            rw [writeInverse_dataAt hwb, writeNext_dataAt hwa])
                        · rw [writeInverse_keys hwb, writeNext_keys hwa]
                          exact hnd
                obtain ⟨hd1, hk1⟩ := hmid
                obtain ⟨hd2, hk2⟩ := deleteRun_presOrGone hts.2.2.length hts.2.2 (some f) l
                  L.m_count σd cd hk1 hdel
                exact dataPresOrGone_trans hd1
                  (dataPresOrGone_trans hd2 (delN_presOrGone σd l hk2))


/-- The five mutating list operations the stability claim ranges over. -/
inductive MutOp where
  | insVal (v : Int) : MutOp
  | insPos (pos : Option Nat) (v : Int) : MutOp
  | delVal (v : Int) : MutOp
  | delPos (pos : Option Nat) : MutOp
  | delRange (first last : Option Nat) : MutOp
deriving DecidableEq

/-- Dispatch a mutating operation to its embedding. -/
def runMutOp (σ : Store) (L : LinkedList) : MutOp → Option (Store × LinkedList × Option Nat)
  | .insVal v => insertValue σ L v
  | .insPos pos v => insertAt σ L pos v
  | .delVal v => eraseValue σ L v
  | .delPos pos => erasePos σ L pos
  | .delRange f l => eraseRange σ L f l

/-- Store produced by building the list `{1, 2, 3, 4, 5}` (node ids 1–5). -/
def exStore5 : Store :=
  [(5, { m_data := 5, m_next := none, m_inverse := some 4 }),
   (4, { m_data := 4, m_next := some 5, m_inverse := some 3 }),
   (3, { m_data := 3, m_next := some 4, m_inverse := some 2 }),
   (2, { m_data := 2, m_next := some 3, m_inverse := some 1 }),
   (1, { m_data := 1, m_next := some 2, m_inverse := none })]

/-- Header produced by building the list `{1, 2, 3, 4, 5}`. -/
def exList5 : LinkedList := { m_head := some 1, m_tail := some 5, m_count := 5 }

/-- Claim C6: an iterator denoting a node that is not itself erased stays
valid with an unchanged value across every insert and erase operation on the
same list.  First conjunct (all five mutating operations): a node present
both before and after the operation carries exactly its old datum — no
operation moves, relocates, or rewrites stored values; nodes are only
allocated fresh, relinked, or deallocated.  Second conjunct (erase by
position, the cited symbol): every node other than the erased position keeps
its datum and remains present.  The `Nodup` hypothesis states that store
addresses are unaliased, which holds for every heap. -/
theorem claimC6_iterator_stability (op : MutOp) (σ σ2 : Store) (L L2 : LinkedList)
    (r : Option Nat) (hkeys : (σ.map Prod.fst).Nodup)
    (hrun : runMutOp σ L op = some (σ2, L2, r)) :
    sameDataOnCommon σ σ2 ∧
    (∀ pos i, op = MutOp.delPos pos → pos ≠ some i → dataAt σ2 i = dataAt σ i) := by
  constructor
  · cases op with
    | insVal v => exact sameDataOnCommon_of_dataKept (insertValue_dataKept σ L v σ2 L2 r hrun)
    | insPos pos v =>
      exact sameDataOnCommon_of_dataKept (insertAt_dataKept σ L pos v σ2 L2 r hrun)
    | delVal v =>
      exact sameDataOnCommon_of_presOrGone (eraseValue_presOrGone σ L v σ2 L2 r hkeys hrun)
    | delPos pos =>
      exact sameDataOnCommon_of_presOrGone (erasePos_presOrGone σ L pos σ2 L2 r hkeys hrun)
    | delRange f l =>
      exact sameDataOnCommon_of_presOrGone (eraseRange_presOrGone σ L f l σ2 L2 r hkeys hrun)
  · rintro pos i rfl hne
    exact erasePos_dataAt_ne σ L pos σ2 L2 r hrun i hne

/-- Claim C6 witness: on the list `{1, 2, 3, 4, 5}`, erase the 5th element
by position; the 2nd node (id 2) keeps its original value 2. -/
theorem claimC6_witness :
    dataAt [(4, { m_data := 4, m_next := none, m_inverse := some 3 }),
            (3, { m_data := 3, m_next := some 4, m_inverse := some 2 }),
            (2, { m_data := 2, m_next := some 3, m_inverse := some 1 }),
            (1, { m_data := 1, m_next := some 2, m_inverse := none })] 2 =
      dataAt exStore5 2 ∧
    dataAt exStore5 2 = some 2 :=
  ⟨(claimC6_iterator_stability (MutOp.delPos (some 5)) exStore5
      [(4, { m_data := 4, m_next := none, m_inverse := some 3 }),
       (3, { m_data := 3, m_next := some 4, m_inverse := some 2 }),
       (2, { m_data := 2, m_next := some 3, m_inverse := some 1 }),
       (1, { m_data := 1, m_next := some 2, m_inverse := none })] exList5
      { m_head := some 1, m_tail := some 4, m_count := 4 } none (by decide) (by decide)).2
      (some 5) 2 rfl (by decide),
   by decide⟩

/-! ### Concrete example states

These are the stores and headers obtained by running the embedded
constructor on small inputs; several claim theorems evaluate the code on
them. -/

/-- Store produced by building the list `{1}`: one node with id 1. -/
def exStore1 : Store := [(1, { m_data := 1, m_next := none, m_inverse := none })]

/-- Header produced by building the list `{1}`. -/
def exList1 : LinkedList := { m_head := some 1, m_tail := some 1, m_count := 1 }

/-- Store produced by building the list `{1, 2}`: node 1 then node 2. -/
def exStore12 : Store :=
  [(2, { m_data := 2, m_next := none, m_inverse := some 1 }),
   (1, { m_data := 1, m_next := some 2, m_inverse := none })]

/-- Header produced by building the list `{1, 2}`. -/
def exList12 : LinkedList := { m_head := some 1, m_tail := some 2, m_count := 2 }

/-! ### Claim theorems -/

/-- Claim C1: the spec asserts that invariants I1-I4 and the
size-reachability condition hold after every finite sequence of insert,
erase, swap and clear operations starting from the empty list.  The code
violates this: `clear()` deallocates every node and nulls `m_head`, but
never resets `m_tail`, so after `insert(1); clear()` the list has a null
head, a dangling non-null tail and count 0, violating I1.  This theorem
evaluates the embedded program on that two-operation sequence and shows the
invariant checker rejects the resulting state. -/
theorem claimC1_clear_violates_invariants :
    (mkList [1]).bind (fun p => clear p.1 p.2) =
      some ([], { m_head := none, m_tail := some 1, m_count := 0 }) ∧
    specInvariantHolds [] { m_head := none, m_tail := some 1, m_count := 0 } = false :=
  ⟨rfl, rfl⟩

/-- Claim C2: the spec asserts that a positional insert before an interior
node splices the new node so that its `inverse` denotes the predecessor.
The code instead overwrites `ogNode->m_inverse` with the new node *before*
reading it back into `newNode->m_inverse`, so the new node's inverse link
points at the new node itself.  Evaluating `insert(iterator-to-2nd, 9)` on
the list `[1, 2]` produces node 3 with `m_inverse = some 3` (a self-loop)
instead of `some 1`. -/
theorem claimC2_interior_insert_corrupts_inverse :
    (mkList [1, 2]).bind (fun p => insertAt p.1 p.2 (some 2) 9) =
      some ([(3, { m_data := 9, m_next := some 2, m_inverse := some 3 }),
             (2, { m_data := 2, m_next := none, m_inverse := some 3 }),
             (1, { m_data := 1, m_next := some 3, m_inverse := none })],
            { m_head := some 1, m_tail := some 2, m_count := 3 }, some 3) :=
  rfl

/-- Claim C3: the spec asserts `erase(first, last)` removes exactly the run
`[first, last)` and touches `head`/`tail` only when the run meets a
boundary.  The code violates both parts: it also deallocates the node
denoted by `last`, and in the interior case it reassigns `m_head` to the
node before the run and `m_tail` to the node after it.  On `[1,2,3,4,5]`,
erasing `[iter-to-3, iter-to-4)` removes nodes 3 *and* 4 (count drops by 2)
and sets the head to node 2, orphaning node 1.  The second conjunct shows
the spec's whole-list example (10 appended values, `erase(begin(), end())`)
does hold on the code. -/
theorem claimC3_range_erase_includes_last_and_clobbers_head :
    (mkList [1, 2, 3, 4, 5]).bind (fun p => eraseRange p.1 p.2 (some 3) (some 4)) =
      some ([(5, { m_data := 5, m_next := none, m_inverse := some 2 }),
             (2, { m_data := 2, m_next := some 5, m_inverse := some 1 }),
             (1, { m_data := 1, m_next := some 2, m_inverse := none })],
            { m_head := some 2, m_tail := some 5, m_count := 3 }, some 5) ∧
    (mkList [0, 1, 2, 3, 4, 5, 6, 7, 8, 9]).bind
        (fun p => eraseRange p.1 p.2 p.2.m_head none) =
      some ([], { m_head := none, m_tail := none, m_count := 0 }, none) :=
  ⟨rfl, rfl⟩

/-- Claim C5: the spec asserts `erase(value)` removes the first matching
node even when it is the sole node.  The code's head-case runs
`currentNode->m_next->m_inverse = nullptr` unconditionally, which
dereferences a null pointer when the matching head has no successor, so
`erase(2)` on the singleton `[2]` crashes (modelled as `none`).  The second
conjunct shows the spec's multi-node example does hold: on `[2,2,2,5,6]`,
one `erase(2)` removes exactly the first 2, leaving count 4. -/
theorem claimC5_erase_value_crashes_on_sole_node :
    (mkList [2]).bind (fun p => eraseValue p.1 p.2 2) = none ∧
    (mkList [2, 2, 2, 5, 6]).bind (fun p => eraseValue p.1 p.2 2) =
      some ([(5, { m_data := 6, m_next := none, m_inverse := some 4 }),
             (4, { m_data := 5, m_next := some 5, m_inverse := some 3 }),
             (3, { m_data := 2, m_next := some 4, m_inverse := some 2 }),
             (2, { m_data := 2, m_next := some 3, m_inverse := none })],
            { m_head := some 2, m_tail := some 5, m_count := 4 }, some 2) :=
  ⟨rfl, rfl⟩

/-- Claim C4 counterexample: the claim states that decrementing a forward
cursor holding the null end sentinel is valid and moves to the tail, while
decrementing a cursor at the head terminates loudly.  On the list `[1, 2]`
(tail is node 2) the code does the opposite: decrementing the null cursor
terminates via `std::terminate`, and decrementing the head cursor silently
yields the null sentinel. -/
theorem claimC4_counterexample :
    mkList [1, 2] = some (exStore12, exList12) ∧
    iterDecrement exStore12 (exList12.endSentinel) = IterOutcome.terminated ∧
    IterOutcome.terminated ≠ IterOutcome.ok exList12.m_tail ∧
    iterDecrement exStore12 exList12.m_head = IterOutcome.ok none ∧
    IterOutcome.ok none ≠ IterOutcome.terminated ∧
    constIterDecrement exStore12 (exList12.endSentinel) = IterOutcome.terminated := by
  refine ⟨rfl, rfl, by decide, rfl, by decide, rfl⟩

/-- Claim C4 amended: for both the forward and const-forward iterator,
decrementing a cursor whose current reference is null is the fatal
precondition violation (it terminates loudly via `std::terminate`), whereas
decrementing a cursor at a live node — including the head, whose inverse is
null — silently moves to the node's `m_inverse` (the null sentinel when at
head). -/
theorem claimC4_amended (σ : Store) (cur : Option Nat) :
    (cur = none →
      iterDecrement σ cur = IterOutcome.terminated ∧
      constIterDecrement σ cur = IterOutcome.terminated) ∧
    (∀ i nd, cur = some i → getN σ i = some nd →
      iterDecrement σ cur = IterOutcome.ok nd.m_inverse ∧
      constIterDecrement σ cur = IterOutcome.ok nd.m_inverse) := by
  constructor
  · rintro rfl
    exact ⟨rfl, rfl⟩
  · rintro i nd rfl hget
    constructor
    · simp [iterDecrement, hget]
    · simp [constIterDecrement, hget]

/-- Claim C4 amended, witness: instantiating the amended theorem on the
concrete list `[1, 2]`: the null cursor terminates, and the head cursor
silently becomes the null sentinel. -/
theorem claimC4_amended_witness :
    iterDecrement exStore12 none = IterOutcome.terminated ∧
    iterDecrement exStore12 (some 1) = IterOutcome.ok none := by
  constructor
  · exact ((claimC4_amended exStore12 none).1 rfl).1
  · exact ((claimC4_amended exStore12 (some 1)).2 1
      { m_data := 1, m_next := some 2, m_inverse := none } rfl (by decide)).1

/-- Claim C7 counterexample: the claim states copying is either disabled or
deep-copies so that copy and original share no node.  The code's copy
constructor is available and copies `m_head`, `m_tail`, `m_count`
verbatim: on the singleton list `{1}` the copy's head denotes the very same
heap node (id 1) as the original's, so the two lists share their node,
falsifying both disjuncts. -/
theorem claimC7_counterexample :
    mkList [1] = some (exStore1, exList1) ∧
    copyConstruct exList1 = exList1 ∧
    (copyConstruct exList1).m_head = exList1.m_head ∧
    exList1.m_head = some 1 ∧
    walkIds exStore1 (exStore1.length + 1) (copyConstruct exList1).m_head = [1] ∧
    walkIds exStore1 (exStore1.length + 1) exList1.m_head = [1] :=
  ⟨rfl, rfl, rfl, rfl, rfl, rfl⟩

/-- Claim C7 amended: copying is enabled and shallow: copy construction and
copy assignment produce a header with the same `m_head`, `m_tail` and
`m_count` as the source, so the copy references exactly the same chain of
heap nodes as the original (no node is allocated, moved or freed, and the
source is unchanged). -/
theorem claimC7_amended (σ : Store) (M L : LinkedList) (fuel : Nat) :
    (copyConstruct L).m_head = L.m_head ∧
    (copyConstruct L).m_tail = L.m_tail ∧
    (copyConstruct L).m_count = L.m_count ∧
    copyAssign M L = copyConstruct L ∧
    walkIds σ fuel ((copyConstruct L).m_head) = walkIds σ fuel L.m_head ∧
    travNext σ fuel ((copyConstruct L).m_head) = travNext σ fuel L.m_head :=
  ⟨rfl, rfl, rfl, rfl, rfl, rfl⟩

/-- Claim C8 counterexample: the claim states that `rend` is the cursor
positioned at `head`.  In the code `rend()` returns a cursor at `m_tail`
(and `rbegin()` is the null sentinel): on the list `[1, 2]` the rend cursor
holds node 2 while the head is node 1, and a traversal started from
`rbegin` visits nothing. -/
theorem claimC8_counterexample :
    mkList [1, 2] = some (exStore12, exList12) ∧
    exList12.rend = some 2 ∧
    exList12.m_head = some 1 ∧
    exList12.rend ≠ exList12.m_head ∧
    exList12.rbegin = none ∧
    travPrev exStore12 exStore12.length exList12.rbegin = [] := by
  refine ⟨rfl, rfl, rfl, by decide, rfl, rfl⟩

/-- Claim C8 amended: reverse traversal visits the same N elements as
forward traversal in exactly reversed order, with the roles of the two
reverse cursors swapped relative to the claim: `rbegin()` is the null
sentinel and `rend()` is the cursor positioned at `tail`; iterating from
`rend` via the `inverse` link (reverse-iterator increment) until the null
sentinel yields the forward sequence reversed. -/
theorem claimC8_amended (xs : List Int) :
    ∃ σ L, mkList xs = some (σ, L) ∧
      travNext σ σ.length L.begin = xs ∧
      travPrev σ σ.length L.rend = xs.reverse ∧
      L.rbegin = L.endSentinel := by
  obtain ⟨σ, L, ids, hrun, hrep⟩ := mkList_listRep xs
  obtain ⟨hch, htl, hlen, hpw⟩ := hrep
  refine ⟨σ, L, hrun, ?_, ?_, rfl⟩
  · exact travNext_chain σ ids xs none L.m_head σ.length hch (le_of_eq hlen.symm)
  · cases ids with
    | nil =>
      obtain ⟨hhd, hxs⟩ := hch
      subst hxs
      rw [show L.rend = L.m_tail from rfl, htl]
      simp [travPrev]
    | cons i is =>
      obtain ⟨t, ht⟩ : ∃ t, (i :: is).getLast? = some t :=
        ⟨(i :: is).getLast (by simp), List.getLast?_eq_getLast _ _⟩
      have h1 := travPrev_chain σ (i :: is) xs none L.m_head t 0 hch ht
      rw [show L.rend = L.m_tail from rfl, htl, ht]
      have hfuel : σ.length = (i :: is).length + 0 := by simpa using hlen
      rw [hfuel, h1]
      simp [travPrev]

/-- Claim C9 counterexample: the claim quantifies over every list with no
matching node, including the empty list, and asserts the returned iterator
is not the end sentinel.  On the empty list `m_tail` is null, so
`erase(0)` returns `iterator(nullptr)`, which is exactly the end
sentinel. -/
theorem claimC9_counterexample :
    mkList [] = some ([], {}) ∧
    eraseValue [] {} 0 = some ([], {}, none) ∧
    LinkedList.endSentinel {} = none ∧
    ({} : LinkedList).m_tail = none :=
  ⟨rfl, rfl, rfl, rfl⟩

/-- Claim C9 amended: when no node's value equals `v`, `erase(v)` returns
`iterator(m_tail)` and leaves the store and the header completely
unchanged; on a non-empty list this iterator denotes the current tail node
and differs from the end sentinel, while on the empty list it coincides
with the end sentinel. -/
theorem claimC9_amended (xs : List Int) (v : Int) (hne : xs ≠ []) (hni : v ∉ xs) :
    ∃ σ L, mkList xs = some (σ, L) ∧
      eraseValue σ L v = some (σ, L, L.m_tail) ∧
      L.m_tail ≠ L.endSentinel := by
  obtain ⟨σ, L, ids, hrun, hrep⟩ := mkList_listRep xs
  obtain ⟨hch, htl, hlen, hpw⟩ := hrep
  obtain ⟨pr2, hscan⟩ := scanValue_not_found σ v ids xs none L.m_head σ.length none hch
    (fun x hx hxv => hni (hxv ▸ hx)) (le_of_eq hlen.symm)
  refine ⟨σ, L, hrun, ?_, ?_⟩
  · unfold eraseValue
    rw [hscan, Option.bind_eq_bind, Option.some_bind]
  · cases ids with
    | nil =>
      obtain ⟨_, hxs⟩ := hch
      exact absurd hxs hne
    | cons i is =>
      obtain ⟨t, ht⟩ : ∃ t, (i :: is).getLast? = some t :=
        ⟨(i :: is).getLast (by simp), List.getLast?_eq_getLast _ _⟩
      rw [htl, ht]
      simp [LinkedList.endSentinel]

/-- Claim C9 amended, witness: on the concrete list `[1, 2]` with the absent
value 5, `erase(5)` leaves everything unchanged and returns the tail
cursor. -/
theorem claimC9_amended_witness :
    ∃ σ L, mkList [1, 2] = some (σ, L) ∧
      eraseValue σ L 5 = some (σ, L, L.m_tail) ∧
      L.m_tail ≠ L.endSentinel :=
  claimC9_amended [1, 2] 5 (by decide) (by decide)

/-- Claim C10: on a list with exactly one node, `erase(begin(), end())` is a
no-op: `lastNode` resolves to `m_tail`, which equals the single node
`firstNode`, so the `firstNode == lastNode` degenerate case returns
`iterator(nullptr)` without modifying the store, the header, or the
count. -/
theorem claimC10_singleton_whole_range_erase_noop (σ : Store) (L : LinkedList) (i : Nat)
    (hh : L.m_head = some i) (ht : L.m_tail = some i) (_hc : L.m_count = 1) :
    eraseRange σ L L.begin L.endSentinel = some (σ, L, none) := by
  simp [eraseRange, LinkedList.begin, LinkedList.endSentinel, hh, ht]

/-- Claim C10 witness: instantiating the theorem on the concrete singleton
list `{7}`. -/
theorem claimC10_witness :
    eraseRange [(1, { m_data := 7, m_next := none, m_inverse := none })]
      { m_head := some 1, m_tail := some 1, m_count := 1 } (some 1) none =
      some ([(1, { m_data := 7, m_next := none, m_inverse := none })],
        { m_head := some 1, m_tail := some 1, m_count := 1 }, none) :=
  claimC10_singleton_whole_range_erase_noop
    [(1, { m_data := 7, m_next := none, m_inverse := none })]
    { m_head := some 1, m_tail := some 1, m_count := 1 } 1 rfl rfl rfl

end BagLL
